import Mathlib

/-!
Verification model of the transcript-monitoring core (extension source,
`src/unnamed/part_000`).  The VS Code / Node surface is abstracted away:

* the single-threaded event loop becomes a small-step system `step` over
  `Sys`, whose actions are the scheduler wakeups of the source (a scan tick,
  a pump from either wake source, a timer callback firing, a terminal close);
* `setTimeout` handles become entries of `waitingTimers` (the per-agent
  debounce timer of `startWaitingTimer`, with its delay in milliseconds) and
  `pendingToolDone` (the anonymous 300 ms tool-done timers of
  `processTranscriptLine`); a cancelled or absent handle never fires, which is
  encoded by the membership guard of the fire actions;
* `postMessage` calls become elements of the returned `List Event`;
* the filesystem seen by one scan tick is the directory listing passed to the
  action (`List FileEntry`), and the file seen by one pump is the byte view
  passed to the action (`Option (List Char)`, `none` when `statSync` throws);
* `JSON.parse` is the boundary between bytes and records: a pump carries the
  parse function, and the interpreter consumes parse results
  (`Option Record`, `none` for a malformed line).
-/

/-- Bytes delivered to an agent: JS `Set.add` (no-op when present, else append
in insertion order). -/
def setAdd (l : List String) (x : String) : List String :=
  if x ∈ l then l else l ++ [x]

/-- JS `Set.delete` / removal of a path from the claim set. -/
def setDelete (l : List String) (x : String) : List String :=
  l.filter (fun y => y ≠ x)

/-- JS `Map.set` on a string-keyed map kept as an association list in
insertion order: update in place when the key is present, else append. -/
def mapSet (m : List (String × String)) (k v : String) : List (String × String) :=
  if k ∈ m.map Prod.fst then m.map (fun p => if p.1 = k then (k, v) else p)
  else m ++ [(k, v)]

/-- JS `Map.delete` on a string-keyed association list. -/
def mapDelete (m : List (String × String)) (k : String) : List (String × String) :=
  m.filter (fun p => p.1 ≠ k)

/-- JS `text.split('\n')`: always returns at least one fragment; a trailing
newline yields a trailing empty fragment. -/
def splitOnNl : List Char → List (List Char)
  | [] => [[]]
  | c :: cs =>
    if c = '\n' then [] :: splitOnNl cs
    else
      match splitOnNl cs with
      | [] => [[c]]
      | l :: ls => (c :: l) :: ls

/-- Rebuild a byte stream from complete lines: each line followed by the
newline that terminated it. -/
def joinNl : List (List Char) → List Char
  | [] => []
  | l :: ls => l ++ '\n' :: joinNl ls

/-- Boolean list-prefix test, used to state that a file view is a prefix of
the final (append-only) file. -/
def leadsList : List Char → List Char → Bool
  | [], _ => true
  | _ :: _, [] => false
  | a :: as, b :: bs => a = b && leadsList as bs

/-- `f.endsWith(".jsonl")` of the listing filter: suffix test over the
character data (a suffix is a reversed prefix). -/
def strEndsWith (s suffix : String) : Bool :=
  leadsList suffix.data.reverse s.data.reverse

/-- `path.join(dir, name)` for the forward-slash directories the code builds. -/
def pathJoin (d n : String) : String := d ++ "/" ++ n

/-- `path.basename` restricted to forward-slash paths. -/
def basename (p : String) : String := (p.splitOn "/").getLastD ""

/-- The structured input of a tool-invocation block, restricted to the two
fields `formatToolStatus` reads. -/
structure ToolInput where
  file_path : Option String
  command : Option String
deriving DecidableEq, Repr

/-- One content block of an assistant record.  `tool_use` keeps the optional
`id` (the code skips falsy ids); `text` carries no payload the code reads;
`other` stands for any other block type (thinking, etc.). -/
inductive ABlock where
  | tool_use (id : Option String) (name : String) (input : ToolInput)
  | text
  | other (t : String)
deriving DecidableEq, Repr

/-- One content block of a user record. -/
inductive UBlock where
  | tool_result (tool_use_id : Option String)
  | other (t : String)
deriving DecidableEq, Repr

/-- The `message.content` of a user record: an array of blocks, a plain
string, or anything else. -/
inductive UContent where
  | arr (blocks : List UBlock)
  | str (s : String)
  | other
deriving DecidableEq, Repr

/-- A parsed transcript record, by its `type` discriminant.  `assistant`
covers the case where `message.content` is an array (otherwise the code
matches no branch, which `other` covers). -/
inductive Record where
  | assistant (content : List ABlock)
  | user (content : UContent)
  | system (subtype : String)
  | other
deriving DecidableEq, Repr

/-- The outbound messages posted to the webview. -/
inductive Event where
  | agentCreated (id : Nat)
  | agentClosed (id : Nat)
  | agentStatus (id : Nat) (status : String)
  | agentToolStart (id : Nat) (toolId : String) (status : String)
  | agentToolDone (id : Nat) (toolId : String)
  | agentToolsClear (id : Nat)
deriving DecidableEq, Repr

/-- `AgentState` of the source; the terminal reference is an opaque handle. -/
structure AgentState where
  id : Nat
  terminalRef : Nat
  projectDir : String
  jsonlFile : String
  fileOffset : Nat
  lineBuffer : List Char
  activeToolIds : List String
  activeToolStatuses : List (String × String)
  isWaiting : Bool
deriving DecidableEq, Repr

/-- One entry of the project-directory listing: full transcript path and
modification time (ms). -/
structure FileEntry where
  path : String
  mtime : Nat
deriving DecidableEq, Repr

/-- The provider's mutable maps.  `agents` is the id-keyed map (ids are
assigned from the monotone counter and never reused, so iteration order of
the JS `Map` is ascending id order); `waitingTimers` holds the pending
debounce timer of each agent with its delay; `pendingToolDone` holds the
scheduled 300 ms tool-done emissions, which the code never stores nor
cancels; `fileWatchers` / `pollingTimers` record which agents have a live
`fs.watch` handle / poll interval. -/
structure Sys where
  nextAgentId : Nat
  agents : Nat → Option AgentState
  claimedFiles : List String
  waitingTimers : List (Nat × Nat)
  pendingToolDone : List (Nat × String)
  fileWatchers : List Nat
  pollingTimers : List Nat

/-- Provider state at activation. -/
def initSys : Sys :=
  { nextAgentId := 1
    agents := fun _ => none
    claimedFiles := []
    waitingTimers := []
    pendingToolDone := []
    fileWatchers := []
    pollingTimers := [] }

/-- Replace one agent's state (the JS code mutates the object found by
`agents.get`). -/
def setAgent (s : Sys) (agentId : Nat) (a : AgentState) : Sys :=
  { s with agents := fun j => if j = agentId then some a else s.agents j }

/-- `blocks.some(b => b.type === 'tool_use')` of the assistant branch. -/
def hasToolUse (blocks : List ABlock) : Bool :=
  blocks.any (fun b => match b with | ABlock.tool_use _ _ _ => true | _ => false)

/-- `blocks.some(b => b.type === 'text')` of the assistant branch. -/
def hasText (blocks : List ABlock) : Bool :=
  blocks.any (fun b => match b with | ABlock.text => true | _ => false)

/-- `blocks.some(b => b.type === 'tool_result')` of the user branch. -/
def hasToolResult (blocks : List UBlock) : Bool :=
  blocks.any (fun b => match b with | UBlock.tool_result _ => true | _ => false)

/-- `formatToolStatus`: pure, total mapping from tool name and input to the
display string. -/
def formatToolStatus (toolName : String) (input : ToolInput) : String :=
  let base : Option String → String := fun p =>
    match p with
    | some s => basename s
    | none => ""
  match toolName with
  | "Read" => "Reading " ++ base input.file_path
  | "Edit" => "Editing " ++ base input.file_path
  | "Write" => "Writing " ++ base input.file_path
  | "Bash" =>
    let cmd := (input.command).getD ""
    "Running: " ++ (if cmd.length > 30 then String.mk (cmd.data.take 30) ++ "…" else cmd)
  | "Glob" => "Searching files"
  | "Grep" => "Searching code"
  | "WebFetch" => "Fetching web content"
  | "WebSearch" => "Searching the web"
  | "Task" => "Running subtask"
  | "AskUserQuestion" => "Waiting for your answer"
  | "EnterPlanMode" => "Planning"
  | "NotebookEdit" => "Editing notebook"
  | _ => "Using " ++ toolName

/-- `cancelWaitingTimer`: clear and forget the agent's pending debounce
timer, if any. -/
def cancelWaitingTimer (s : Sys) (agentId : Nat) : Sys :=
  { s with waitingTimers := s.waitingTimers.filter (fun p => p.1 ≠ agentId) }

/-- `startWaitingTimer`: cancel any pending debounce timer, then arm a new
one with the given delay. -/
def startWaitingTimer (s : Sys) (agentId : Nat) (delayMs : Nat) : Sys :=
  { s with waitingTimers :=
      s.waitingTimers.filter (fun p => p.1 ≠ agentId) ++ [(agentId, delayMs)] }

/-- The callback of `startWaitingTimer` firing: only a pending (uncancelled)
timer can fire; it forgets itself, sets `isWaiting` when the agent is still
alive, and posts the "waiting" status unconditionally. -/
def fireWaitingTimer (s : Sys) (agentId : Nat) : Sys × List Event :=
  if s.waitingTimers.any (fun p => p.1 = agentId) then
    let s1 := { s with waitingTimers := s.waitingTimers.filter (fun p => p.1 ≠ agentId) }
    let s2 :=
      match s1.agents agentId with
      | some a => setAgent s1 agentId { a with isWaiting := true }
      | none => s1
    (s2, [Event.agentStatus agentId "waiting"])
  else (s, [])

/-- One scheduled 300 ms tool-done callback firing: it posts
`agentToolDone` unconditionally — the code neither tracks the handle nor
checks that the agent still exists. -/
def fireToolDoneTimer (s : Sys) (agentId : Nat) (toolId : String) : Sys × List Event :=
  if (agentId, toolId) ∈ s.pendingToolDone then
    ({ s with pendingToolDone := s.pendingToolDone.erase (agentId, toolId) },
     [Event.agentToolDone agentId toolId])
  else (s, [])

/-- `clearAgentActivity`: wipe tool bookkeeping and the waiting flag, post
"tools cleared" then "active". -/
def clearAgentActivity (s : Sys) (agentId : Nat) : Sys × List Event :=
  match s.agents agentId with
  | none => (s, [])
  | some a =>
    (setAgent s agentId { a with activeToolIds := [], activeToolStatuses := [], isWaiting := false },
     [Event.agentToolsClear agentId, Event.agentStatus agentId "active"])

/-- The per-block loop of the tool-invocation branch: add each tool-use
block with a truthy id to both tool maps and post its start event, in block
order. -/
def toolUseFold (agentId : Nat) (a : AgentState) : List ABlock → AgentState × List Event
  | [] => (a, [])
  | b :: bs =>
    match b with
    | ABlock.tool_use (some bid) name input =>
      if bid = "" then toolUseFold agentId a bs
      else
        let status := formatToolStatus name input
        let r := toolUseFold agentId
          { a with activeToolIds := setAdd a.activeToolIds bid,
                   activeToolStatuses := mapSet a.activeToolStatuses bid status } bs
        (r.1, Event.agentToolStart agentId bid status :: r.2)
    | _ => toolUseFold agentId a bs

/-- The per-block loop of the tool-result branch: remove each matching id
from both tool maps and schedule the delayed tool-done emission, in block
order. -/
def toolResultFold (agentId : Nat) (a : AgentState) : List UBlock → AgentState × List (Nat × String)
  | [] => (a, [])
  | b :: bs =>
    match b with
    | UBlock.tool_result (some tid) =>
      if tid = "" then toolResultFold agentId a bs
      else
        let r := toolResultFold agentId
          { a with activeToolIds := a.activeToolIds.filter (fun y => y ≠ tid),
                   activeToolStatuses := a.activeToolStatuses.filter (fun p => p.1 ≠ tid) } bs
        (r.1, (agentId, tid) :: r.2)
    | _ => toolResultFold agentId a bs

/-- `processTranscriptLine` on the parse result of one line (`none` when
`JSON.parse` threw). -/
def processTranscriptLine (s : Sys) (agentId : Nat) (item : Option Record) :
    Sys × List Event :=
  match s.agents agentId with
  | none => (s, [])
  | some agent =>
    match item with
    | none => (s, [])
    | some record =>
      match record with
      | Record.assistant blocks =>
        if hasToolUse blocks then
          let s1 := cancelWaitingTimer s agentId
          let r := toolUseFold agentId { agent with isWaiting := false } blocks
          (setAgent s1 agentId r.1, Event.agentStatus agentId "active" :: r.2)
        else
          if hasText blocks then
            (startWaitingTimer s agentId 2000, [])
          else (s, [])
      | Record.user content =>
        match content with
        | UContent.arr blocks =>
          if hasToolResult blocks then
            let r := toolResultFold agentId agent blocks
            ({ setAgent s agentId r.1 with
                pendingToolDone := s.pendingToolDone ++ r.2 }, [])
          else
            clearAgentActivity (cancelWaitingTimer s agentId) agentId
        | UContent.str str =>
          if str.trim ≠ "" then
            clearAgentActivity (cancelWaitingTimer s agentId) agentId
          else (s, [])
        | UContent.other => (s, [])
      | Record.system subtype =>
        if subtype = "turn_duration" then
          let s1 := cancelWaitingTimer s agentId
          match s1.agents agentId with
          | some a => (setAgent s1 agentId { a with isWaiting := true },
                       [Event.agentStatus agentId "waiting"])
          | none => (s1, [Event.agentStatus agentId "waiting"])
        else (s, [])
      | Record.other => (s, [])

/-- The byte-level body of `readNewLines`: stat the file (`none` when
`statSync` throws), no-op unless the size grew, otherwise read exactly the
new bytes, prepend the carry, split on newlines; the last fragment becomes
the new carry and the complete lines are returned in order. -/
def readNewLinesB (a : AgentState) (view : Option (List Char)) :
    AgentState × List (List Char) :=
  match view with
  | none => (a, [])
  | some f =>
    if f.length ≤ a.fileOffset then (a, [])
    else
      let lines := splitOnNl (a.lineBuffer ++ f.drop a.fileOffset)
      ({ a with fileOffset := f.length, lineBuffer := lines.getLastD [] },
       lines.dropLast)

/-- The per-line loop of `readNewLines`: every complete non-blank line is
parsed and handed to the interpreter in file order. -/
def deliverLines (parse : List Char → Option Record) (agentId : Nat) (s : Sys) :
    List (List Char) → Sys × List Event
  | [] => (s, [])
  | line :: rest =>
    if line.all Char.isWhitespace then deliverLines parse agentId s rest
    else
      let r := processTranscriptLine s agentId (parse line)
      let r2 := deliverLines parse agentId r.1 rest
      (r2.1, r.2 ++ r2.2)

/-- `readNewLines` as invoked by either wake source: the byte step of
`readNewLinesB` (offset and carry updated first, as in the source), then
the per-line loop.  `parse` stands for `JSON.parse` composed with the
record shape match. -/
def pumpParsed (parse : List Char → Option Record) (s : Sys) (agentId : Nat)
    (view : Option (List Char)) : Sys × List Event :=
  match s.agents agentId with
  | none => (s, [])
  | some a =>
    match view with
    | none => (s, [])
    | some f =>
      if f.length ≤ a.fileOffset then (s, [])
      else
        let lines := splitOnNl (a.lineBuffer ++ f.drop a.fileOffset)
        let s1 := setAgent s agentId
          { a with fileOffset := f.length, lineBuffer := lines.getLastD [] }
        deliverLines parse agentId s1 lines.dropLast

/-- `isFileRecent`: the configured max age in seconds (0 = show all), the
current time, and a stat of the candidate path against the listing; a path
that cannot be statted is not recent. -/
def isFileRecent (maxAge now : Nat) (dir : List FileEntry) (filePath : String) : Bool :=
  if maxAge = 0 then true
  else
    match dir.find? (fun e => e.path = filePath) with
    | some e => decide ((now : Int) - (e.mtime : Int) < (maxAge : Int) * 1000)
    | none => false

/-- The freshly constructed `AgentState` of `createAgentFromFile`. -/
def initialAgent (id term : Nat) (filePath projectDir : String) : AgentState :=
  { id := id, terminalRef := term, projectDir := projectDir,
    jsonlFile := filePath, fileOffset := 0, lineBuffer := [],
    activeToolIds := [], activeToolStatuses := [], isWaiting := false }

/-- `createAgentFromFile`: allocate the next id, register the agent, add the
path to the claim set, post `agentCreated`, and start both wake sources.
The initial `readNewLines` call is represented by subsequent pump actions of
the trace. -/
def createAgentFromFile (s : Sys) (term : Nat) (filePath projectDir : String) :
    Sys × List Event :=
  let id := s.nextAgentId
  ({ s with
      nextAgentId := id + 1
      agents := fun j =>
        if j = id then some (initialAgent id term filePath projectDir)
        else s.agents j
      claimedFiles := setAdd s.claimedFiles filePath
      fileWatchers := s.fileWatchers ++ [id]
      pollingTimers := s.pollingTimers ++ [id] },
   [Event.agentCreated id])

/-- The opportunistic loop of `scanForNewFiles`: claim each listed `.jsonl`
file that is unclaimed at its turn and passes the recency filter. -/
def scanFiles (term : Nat) (projectDir : String) (dir : List FileEntry)
    (now maxAge : Nat) (s : Sys) : List String → Sys × List Event
  | [] => (s, [])
  | file :: rest =>
    if file ∉ s.claimedFiles ∧ isFileRecent maxAge now dir file = true then
      let r := createAgentFromFile s term file projectDir
      let r2 := scanFiles term projectDir dir now maxAge r.1 rest
      (r2.1, r.2 ++ r2.2)
    else scanFiles term projectDir dir now maxAge s rest

/-- `scanForNewFiles` proper: the deterministic pass, then the opportunistic
loop over the listing. -/
def scanForNewFiles (s : Sys) (term : Nat) (sid : Option String)
    (projectDir : String) (dir : List FileEntry) (now maxAge : Nat) :
    Sys × List Event :=
  let r1 :=
    match sid with
    | some sessionId =>
      let expectedFile := pathJoin projectDir (sessionId ++ ".jsonl")
      if dir.any (fun e => e.path = expectedFile) ∧ expectedFile ∉ s.claimedFiles then
        createAgentFromFile s term expectedFile projectDir
      else (s, [])
    | none => (s, [])
  let files := (dir.filter (fun e => strEndsWith e.path ".jsonl")).map (fun e => e.path)
  let r2 := scanFiles term projectDir dir now maxAge r1.1 files
  (r2.1, r1.2 ++ r2.2)

/-- `removeAgent`: close the watcher, clear the poll interval, cancel the
debounce timer, release the claim, delete the agent.  The untracked 300 ms
tool-done timers are left untouched (the code holds no handle to them). -/
def removeAgent (s : Sys) (agentId : Nat) : Sys :=
  match s.agents agentId with
  | none => s
  | some agent =>
    { s with
        agents := fun j => if j = agentId then none else s.agents j
        claimedFiles := setDelete s.claimedFiles agent.jsonlFile
        waitingTimers := s.waitingTimers.filter (fun p => p.1 ≠ agentId)
        fileWatchers := s.fileWatchers.filter (fun j => j ≠ agentId)
        pollingTimers := s.pollingTimers.filter (fun j => j ≠ agentId) }

/-- The loop of the `onDidCloseTerminal` handler over the candidate ids. -/
def closeAgents (term : Nat) (s : Sys) : List Nat → Sys × List Event
  | [] => (s, [])
  | j :: rest =>
    match s.agents j with
    | some a =>
      if a.terminalRef = term then
        let r := closeAgents term (removeAgent s j) rest
        (r.1, Event.agentClosed j :: r.2)
      else closeAgents term s rest
    | none => closeAgents term s rest

/-- The `onDidCloseTerminal` handler: remove every agent on the closed
terminal (in id order, the iteration order of the JS `Map`, since ids are
assigned in insertion order and never re-inserted) and post `agentClosed`
for each. -/
def closeTerminal (s : Sys) (term : Nat) : Sys × List Event :=
  closeAgents term s (List.range s.nextAgentId)

/-- One scheduler wakeup of the event loop. -/
inductive Act where
  | deliver (agentId : Nat) (item : Option Record)
  | pump (parse : List Char → Option Record) (agentId : Nat) (view : Option (List Char))
  | fireWaiting (agentId : Nat)
  | fireToolDone (agentId : Nat) (toolId : String)
  | closeTerm (term : Nat)
  | scanTick (term : Nat) (sid : Option String) (projectDir : String)
      (dir : List FileEntry) (now maxAge : Nat)

/-- Dispatch one wakeup. -/
def step (s : Sys) : Act → Sys × List Event
  | Act.deliver agentId item => processTranscriptLine s agentId item
  | Act.pump parse agentId view => pumpParsed parse s agentId view
  | Act.fireWaiting agentId => fireWaitingTimer s agentId
  | Act.fireToolDone agentId toolId => fireToolDoneTimer s agentId toolId
  | Act.closeTerm term => closeTerminal s term
  | Act.scanTick term sid projectDir dir now maxAge =>
    scanForNewFiles s term sid projectDir dir now maxAge

/-- Run a sequence of wakeups, concatenating the posted events. -/
def run (s : Sys) : List Act → Sys × List Event
  | [] => (s, [])
  | a :: as =>
    let r := step s a
    let r2 := run r.1 as
    (r2.1, r.2 ++ r2.2)

/-- A sequence of pump invocations of one agent at the byte level (either
wake source), each against the file view current at that wakeup;
concatenates the complete lines delivered to the interpreter. -/
def pumpAllB (a : AgentState) : List (Option (List Char)) → AgentState × List (List Char)
  | [] => (a, [])
  | v :: vs =>
    let r := readNewLinesB a v
    let r2 := pumpAllB r.1 vs
    (r2.1, r.2 ++ r2.2)

/-- A sequence of full pump invocations of one agent (either wake source, in
any interleaving they are invoked back to back on the event loop). -/
def pumpMany (parse : List Char → Option Record) (s : Sys) (agentId : Nat) :
    List (Option (List Char)) → Sys × List Event
  | [] => (s, [])
  | v :: vs =>
    let r := pumpParsed parse s agentId v
    let r2 := pumpMany parse r.1 agentId vs
    (r2.1, r.2 ++ r2.2)

/-- The data-model invariant of the provider: live ids are below the
counter, every live agent's transcript path is claimed, no two live agents
share a transcript path, and each agent's open-tool id set is the key list
of its status map. -/
def SysInv (s : Sys) : Prop :=
  (∀ j a, s.agents j = some a → j < s.nextAgentId)
  ∧ (∀ j a, s.agents j = some a → a.jsonlFile ∈ s.claimedFiles)
  ∧ (∀ i j a b, i ≠ j → s.agents i = some a → s.agents j = some b →
      a.jsonlFile ≠ b.jsonlFile)
  ∧ (∀ j a, s.agents j = some a → a.activeToolIds = a.activeToolStatuses.map Prod.fst)

/-- The reconstruction invariant of the tailing reader of one agent against
the final (append-only) file `F`: the lines delivered so far, each with its
terminating newline, followed by the carry, are exactly the consumed prefix;
the offset never passes the end; the carry holds no newline. -/
def TailInv (F : List Char) (a : AgentState) (D : List (List Char)) : Prop :=
  joinNl D ++ a.lineBuffer = F.take a.fileOffset
  ∧ a.fileOffset ≤ F.length
  ∧ '\n' ∉ a.lineBuffer

/-- Concrete scan tick: terminal 7 launched with session id "s", one
matching transcript in the project directory. -/
def cxActs0 : List Act :=
  [Act.scanTick 7 (some "s") "d" [{ path := "d/s.jsonl", mtime := 5000 }] 0 0]

/-- Concrete assistant record with one tool-invocation block. -/
def cxToolUseRec : Record :=
  Record.assistant [ABlock.tool_use (some "t1") "Read" { file_path := none, command := none }]

/-- Concrete authoritative turn-completion record. -/
def cxTurnRec : Record := Record.system "turn_duration"

/-- Concrete user record holding one tool-result block for id "t1". -/
def cxToolResultRec : Record :=
  Record.user (UContent.arr [UBlock.tool_result (some "t1")])

/-- Trace for C4: tool start, matched result and its delayed emission, then
a second result for the already-removed id and its delayed emission. -/
def c4Acts : List Act :=
  cxActs0 ++ [Act.deliver 1 (some cxToolUseRec), Act.deliver 1 (some cxToolResultRec),
    Act.fireToolDone 1 "t1", Act.deliver 1 (some cxToolResultRec), Act.fireToolDone 1 "t1"]

/-- Trace prefix for C6: claimed agent that has started tool "t1". -/
def c6Pre : List Act := cxActs0 ++ [Act.deliver 1 (some cxToolUseRec)]

/-- Trace for C9: tool start and matched result, terminal closed before the
delayed tool-done timer fires, then that timer fires. -/
def c9Acts : List Act :=
  cxActs0 ++ [Act.deliver 1 (some cxToolUseRec), Act.deliver 1 (some cxToolResultRec),
    Act.closeTerm 7, Act.fireToolDone 1 "t1"]

/-- Scan tick claiming two fresh transcripts opportunistically (no session
id, unlimited age), for the C1 witness. -/
def c1Acts : List Act :=
  [Act.scanTick 7 none "d" [{ path := "d/a.jsonl", mtime := 0 }, { path := "d/b.jsonl", mtime := 0 }] 0 0]

/-- Trace exercising tool bookkeeping for the C10 witness. -/
def c10Acts : List Act :=
  cxActs0 ++ [Act.deliver 1 (some cxToolUseRec), Act.deliver 1 (some cxToolResultRec)]

/-- Trace arming the text-only debounce timer of agent 1. -/
def c5Acts : List Act := cxActs0 ++ [Act.deliver 1 (some (Record.assistant [ABlock.text]))]

/-- Agent 1 of `c6Pre`: tool "t1" open. -/
def c6PreAgent : AgentState :=
  { initialAgent 1 7 "d/s.jsonl" "d" with
    activeToolIds := ["t1"], activeToolStatuses := [("t1", "Reading ")] }

/-- The fields of an agent the interpreter never writes. -/
def coreEq (x y : AgentState) : Prop :=
  x.id = y.id ∧ x.terminalRef = y.terminalRef ∧ x.projectDir = y.projectDir
  ∧ x.jsonlFile = y.jsonlFile ∧ x.fileOffset = y.fileOffset ∧ x.lineBuffer = y.lineBuffer

/-- The per-agent lockstep property of claim C10: the open-tool id set is
the key list of the status map. -/
def lockstepOf (x : AgentState) : Prop :=
  x.activeToolIds = x.activeToolStatuses.map Prod.fst

/-- The agent created by the opportunistic pass of `c1Acts` for `a.jsonl`. -/
def c1AgentA : AgentState := initialAgent 1 7 "d/a.jsonl" "d"

/-- The agent created by the opportunistic pass of `c1Acts` for `b.jsonl`. -/
def c1AgentB : AgentState := initialAgent 2 7 "d/b.jsonl" "d"

/-- The agent created by the deterministic pass of `cxActs0`. -/
def csAgent : AgentState := initialAgent 1 7 "d/s.jsonl" "d"

theorem joinNl_append (l1 l2 : List (List Char)) :
    joinNl (l1 ++ l2) = joinNl l1 ++ joinNl l2 := by
  induction l1 with
  | nil => simp [joinNl]
  | cons l ls ih => simp [joinNl, ih]

theorem splitOnNl_spec (cs : List Char) :
    ∃ ls l, splitOnNl cs = ls ++ [l] ∧ joinNl ls ++ l = cs ∧ '\n' ∉ l := by
  induction cs with
  | nil => exact ⟨[], [], rfl, rfl, by simp⟩
  | cons c cs ih =>
    obtain ⟨ls, l, h1, h2, h3⟩ := ih
    by_cases hc : c = '\n'
    · subst hc
      refine ⟨[] :: ls, l, ?_, ?_, h3⟩
      · simp [splitOnNl, h1]
      · simp [joinNl, h2]
    · cases ls with
      | nil =>
        refine ⟨[], c :: l, ?_, ?_, ?_⟩
        · simp [splitOnNl, hc, h1]
        · simp [joinNl] at h2 ⊢
          simp [h2]
        · intro h
          rcases List.mem_cons.mp h with h | h
          · exact hc h.symm
          · exact h3 h
      | cons l0 ls0 =>
        refine ⟨(c :: l0) :: ls0, l, ?_, ?_, h3⟩
        · simp [splitOnNl, hc, h1]
        · simp [joinNl] at h2 ⊢
          simp [h2]

theorem leadsList_iff (v F : List Char) : leadsList v F = true ↔ ∃ t, v ++ t = F := by
  induction v generalizing F with
  | nil => simp [leadsList]
  | cons a as ih =>
    cases F with
    | nil => simp [leadsList]
    | cons b bs =>
      simp only [leadsList, Bool.and_eq_true, decide_eq_true_eq, ih, List.cons_append,
        List.cons.injEq]
      constructor
      · rintro ⟨rfl, t, rfl⟩
        exact ⟨t, rfl, rfl⟩
      · rintro ⟨t, rfl, h⟩
        exact ⟨rfl, t, h⟩

theorem readNewLinesB_inv (F : List Char) (a : AgentState) (D : List (List Char))
    (v : Option (List Char)) (hpre : ∀ f, v = some f → leadsList f F = true)
    (h : TailInv F a D) :
    TailInv F (readNewLinesB a v).1 (D ++ (readNewLinesB a v).2) := by
  obtain ⟨h1, h2, h3⟩ := h
  cases v with
  | none => exact ⟨by simpa [readNewLinesB] using h1, h2, h3⟩
  | some f =>
    obtain ⟨t, rfl⟩ := (leadsList_iff f F).mp (hpre f rfl)
    by_cases hle : f.length ≤ a.fileOffset
    · exact ⟨by simpa [readNewLinesB, hle] using h1, by simpa [readNewLinesB, hle] using h2,
        by simpa [readNewLinesB, hle] using h3⟩
    · obtain ⟨ls, l, hs1, hs2, hs3⟩ := splitOnNl_spec (a.lineBuffer ++ f.drop a.fileOffset)
      have hofs : a.fileOffset ≤ f.length := Nat.le_of_lt (Nat.lt_of_not_le hle)
      refine ⟨?_, ?_, ?_⟩
      · show joinNl (D ++ (readNewLinesB a (some f)).2) ++ (readNewLinesB a (some f)).1.lineBuffer
            = (f ++ t).take (readNewLinesB a (some f)).1.fileOffset
        simp only [readNewLinesB, hle, if_neg (by omega : ¬ f.length ≤ a.fileOffset), hs1,
          List.dropLast_concat, List.getLastD_concat]
        calc joinNl (D ++ ls) ++ l
            = joinNl D ++ (joinNl ls ++ l) := by
              rw [joinNl_append, List.append_assoc]
          _ = (joinNl D ++ a.lineBuffer) ++ List.drop a.fileOffset f := by
              rw [hs2]
              rw [List.append_assoc]
          _ = (f ++ t).take a.fileOffset ++ List.drop a.fileOffset f := by rw [h1]
          _ = f.take a.fileOffset ++ List.drop a.fileOffset f := by
              rw [List.take_append_of_le_length hofs]
          _ = f := List.take_append_drop _ _
          _ = (f ++ t).take f.length := (List.take_left _ _).symm
      · simp [readNewLinesB, hle]
      · simpa [readNewLinesB, hle, hs1, List.getLastD_concat] using hs3

theorem pumpAllB_inv (F : List Char) (views : List (Option (List Char))) :
    ∀ (a : AgentState) (D : List (List Char)),
      (∀ f, some f ∈ views → leadsList f F = true) → TailInv F a D →
      TailInv F (pumpAllB a views).1 (D ++ (pumpAllB a views).2) := by
  induction views with
  | nil =>
    intro a D _ h
    simpa [pumpAllB] using h
  | cons v vs ih =>
    intro a D hpre h
    have h1 := readNewLinesB_inv F a D v
      (fun f hf => hpre f (by rw [hf]; exact List.mem_cons_self _ _)) h
    have h2 := ih (readNewLinesB a v).1 (D ++ (readNewLinesB a v).2)
      (fun f hf => hpre f (List.mem_cons_of_mem _ hf)) h1
    simpa [pumpAllB, List.append_assoc] using h2

theorem readNewLinesB_full (F : List Char) (a : AgentState)
    (h2 : a.fileOffset ≤ F.length) :
    (readNewLinesB a (some F)).1.fileOffset = F.length := by
  by_cases hle : F.length ≤ a.fileOffset
  · simp only [readNewLinesB, if_pos hle]
    omega
  · simp [readNewLinesB, hle]

theorem any_filter_ne (l : List (Nat × Nat)) (i : Nat) :
    ((l.filter (fun p => p.1 ≠ i)).any (fun p => p.1 = i)) = false := by
  induction l with
  | nil => rfl
  | cons p ps ih => by_cases hp : p.1 = i <;> simp [hp, ih]

theorem filter_eq_after_ne (l : List (Nat × Nat)) (i : Nat) :
    (l.filter (fun p => p.1 ≠ i)).filter (fun p => p.1 = i) = [] := by
  induction l with
  | nil => rfl
  | cons p ps ih => by_cases hp : p.1 = i <;> simp [hp, ih]

theorem mapSet_fst (m : List (String × String)) (k v : String) :
    (mapSet m k v).map Prod.fst
      = if k ∈ m.map Prod.fst then m.map Prod.fst else m.map Prod.fst ++ [k] := by
  by_cases hk : k ∈ m.map Prod.fst
  · simp only [mapSet, if_pos hk, List.map_map]
    congr 1
    funext p
    by_cases hp : p.1 = k <;> simp [hp, Function.comp]
  · simp [mapSet, hk]

theorem lockstep_add (m : List (String × String)) (k v : String) :
    setAdd (m.map Prod.fst) k = (mapSet m k v).map Prod.fst := by
  rw [mapSet_fst, setAdd]

theorem map_fst_filter (m : List (String × String)) (tid : String) :
    (m.filter (fun p => p.1 ≠ tid)).map Prod.fst
      = (m.map Prod.fst).filter (fun y => y ≠ tid) := by
  induction m with
  | nil => rfl
  | cons p ps ih => by_cases hp : p.1 = tid <;> simpa [List.filter_cons, hp] using ih

theorem toolUseFold_core (agentId : Nat) (blocks : List ABlock) : ∀ a : AgentState,
    coreEq (toolUseFold agentId a blocks).1 a
    ∧ (toolUseFold agentId a blocks).1.isWaiting = a.isWaiting
    ∧ (lockstepOf a → lockstepOf (toolUseFold agentId a blocks).1) := by
  induction blocks with
  | nil => intro a; exact ⟨⟨rfl, rfl, rfl, rfl, rfl, rfl⟩, rfl, fun h => h⟩
  | cons bb bs ih =>
    intro a
    match bb with
    | ABlock.text => simpa [toolUseFold] using ih a
    | ABlock.other t => simpa [toolUseFold] using ih a
    | ABlock.tool_use none name input => simpa [toolUseFold] using ih a
    | ABlock.tool_use (some bid) name input =>
      by_cases hb : bid = ""
      · simpa [toolUseFold, hb] using ih a
      · have h := ih { a with
          activeToolIds := setAdd a.activeToolIds bid,
          activeToolStatuses := mapSet a.activeToolStatuses bid (formatToolStatus name input) }
        obtain ⟨⟨e1, e2, e3, e4, e5, e6⟩, e7, e8⟩ := h
        simp only [toolUseFold, if_neg hb]
        refine ⟨⟨?_, ?_, ?_, ?_, ?_, ?_⟩, ?_, ?_⟩
        · exact e1
        · exact e2
        · exact e3
        · exact e4
        · exact e5
        · exact e6
        · exact e7
        · intro hl
          refine e8 ?_
          show setAdd a.activeToolIds bid
              = (mapSet a.activeToolStatuses bid (formatToolStatus name input)).map Prod.fst
          rw [lockstepOf] at hl
          rw [hl]
          exact lockstep_add _ _ _

theorem toolResultFold_core (agentId : Nat) (blocks : List UBlock) : ∀ a : AgentState,
    coreEq (toolResultFold agentId a blocks).1 a
    ∧ (toolResultFold agentId a blocks).1.isWaiting = a.isWaiting
    ∧ (lockstepOf a → lockstepOf (toolResultFold agentId a blocks).1) := by
  induction blocks with
  | nil => intro a; exact ⟨⟨rfl, rfl, rfl, rfl, rfl, rfl⟩, rfl, fun h => h⟩
  | cons bb bs ih =>
    intro a
    match bb with
    | UBlock.other t => simpa [toolResultFold] using ih a
    | UBlock.tool_result none => simpa [toolResultFold] using ih a
    | UBlock.tool_result (some tid) =>
      by_cases hb : tid = ""
      · simpa [toolResultFold, hb] using ih a
      · have h := ih { a with
          activeToolIds := a.activeToolIds.filter (fun y => y ≠ tid),
          activeToolStatuses := a.activeToolStatuses.filter (fun p => p.1 ≠ tid) }
        obtain ⟨⟨e1, e2, e3, e4, e5, e6⟩, e7, e8⟩ := h
        simp only [toolResultFold, if_neg hb]
        refine ⟨⟨?_, ?_, ?_, ?_, ?_, ?_⟩, ?_, ?_⟩
        · exact e1
        · exact e2
        · exact e3
        · exact e4
        · exact e5
        · exact e6
        · exact e7
        · intro hl
          refine e8 ?_
          show a.activeToolIds.filter (fun y => y ≠ tid)
              = (a.activeToolStatuses.filter (fun p => p.1 ≠ tid)).map Prod.fst
          rw [lockstepOf] at hl
          rw [hl]
          exact (map_fst_filter _ _).symm

theorem processTranscriptLine_other (s : Sys) (agentId : Nat) (item : Option Record) (j : Nat) (hj : j ≠ agentId) :
    (processTranscriptLine s agentId item).1.agents j = s.agents j := by
  unfold processTranscriptLine clearAgentActivity cancelWaitingTimer startWaitingTimer setAgent
  repeat' split
  all_goals simp_all

theorem processTranscriptLine_none (s : Sys) (agentId : Nat) (item : Option Record) (j : Nat)
    (hn : s.agents j = none) :
    (processTranscriptLine s agentId item).1.agents j = none := by
  by_cases hj : j = agentId
  · subst hj
    unfold processTranscriptLine
    rw [hn]
    exact hn
  · rw [processTranscriptLine_other s agentId item j hj]
    exact hn

theorem processTranscriptLine_const (s : Sys) (agentId : Nat) (item : Option Record) :
    (processTranscriptLine s agentId item).1.nextAgentId = s.nextAgentId
    ∧ (processTranscriptLine s agentId item).1.claimedFiles = s.claimedFiles
    ∧ (processTranscriptLine s agentId item).1.fileWatchers = s.fileWatchers
    ∧ (processTranscriptLine s agentId item).1.pollingTimers = s.pollingTimers := by
  unfold processTranscriptLine clearAgentActivity cancelWaitingTimer startWaitingTimer setAgent
  repeat' split
  all_goals simp_all

theorem coreEq_rfl (x : AgentState) : coreEq x x := ⟨rfl, rfl, rfl, rfl, rfl, rfl⟩

theorem processTranscriptLine_self (s : Sys) (agentId : Nat) (item : Option Record)
    (agent : AgentState) (hA : s.agents agentId = some agent) :
    ∃ b', (processTranscriptLine s agentId item).1.agents agentId = some b'
      ∧ coreEq b' agent ∧ (lockstepOf agent → lockstepOf b') := by
  unfold processTranscriptLine
  rw [hA]
  cases item with
  | none => exact ⟨agent, hA, coreEq_rfl agent, fun h => h⟩
  | some record =>
    cases record with
    | assistant blocks =>
      by_cases htu : hasToolUse blocks = true
      · simp only [if_pos htu]
        have h := toolUseFold_core agentId blocks { agent with isWaiting := false }
        obtain ⟨⟨e1, e2, e3, e4, e5, e6⟩, _, e8⟩ := h
        refine ⟨(toolUseFold agentId { agent with isWaiting := false } blocks).1, ?_, ?_, ?_⟩
        · simp [setAgent]
        · exact ⟨by simpa using e1, by simpa using e2, by simpa using e3,
                 by simpa using e4, by simpa using e5, by simpa using e6⟩
        · intro hl
          exact e8 hl
      · simp only [if_neg htu]
        by_cases htx : hasText blocks = true
        · simp only [if_pos htx]
          exact ⟨agent, hA, coreEq_rfl agent, fun h => h⟩
        · simp only [if_neg htx]
          exact ⟨agent, hA, coreEq_rfl agent, fun h => h⟩
    | user content =>
      cases content with
      | arr blocks =>
        by_cases htr : hasToolResult blocks = true
        · simp only [if_pos htr]
          refine ⟨(toolResultFold agentId agent blocks).1, ?_, ?_, ?_⟩
          · simp [setAgent]
          · exact (toolResultFold_core agentId blocks agent).1
          · exact (toolResultFold_core agentId blocks agent).2.2
        · simp only [if_neg htr]
          refine ⟨{ agent with
              activeToolIds := [], activeToolStatuses := [], isWaiting := false },
              ?_, ⟨rfl, rfl, rfl, rfl, rfl, rfl⟩, fun _ => rfl⟩
          simp [clearAgentActivity, cancelWaitingTimer, hA, setAgent]
      | str str =>
        by_cases hs : str.trim ≠ ""
        · simp only [if_pos hs]
          refine ⟨{ agent with
              activeToolIds := [], activeToolStatuses := [], isWaiting := false },
              ?_, ⟨rfl, rfl, rfl, rfl, rfl, rfl⟩, fun _ => rfl⟩
          simp [clearAgentActivity, cancelWaitingTimer, hA, setAgent]
        · simp only [if_neg hs]
          exact ⟨agent, hA, coreEq_rfl agent, fun h => h⟩
      | other => exact ⟨agent, hA, coreEq_rfl agent, fun h => h⟩
    | system subtype =>
      by_cases hsub : subtype = "turn_duration"
      · simp only [if_pos hsub]
        refine ⟨{ agent with isWaiting := true }, ?_, ⟨rfl, rfl, rfl, rfl, rfl, rfl⟩, fun h => h⟩
        simp [cancelWaitingTimer, hA, setAgent]
      · simp only [if_neg hsub]
        exact ⟨agent, hA, coreEq_rfl agent, fun h => h⟩
    | other => exact ⟨agent, hA, coreEq_rfl agent, fun h => h⟩

theorem setAdd_mem (l : List String) (x y : String) : y ∈ setAdd l x ↔ y ∈ l ∨ y = x := by
  by_cases hx : x ∈ l
  · simp only [setAdd, if_pos hx]
    constructor
    · exact Or.inl
    · rintro (h | rfl)
      · exact h
      · exact hx
  · simp [setAdd, hx]

theorem processTranscriptLine_track (s : Sys) (agentId : Nat) (item : Option Record) (j : Nat) (a : AgentState)
    (ha : (processTranscriptLine s agentId item).1.agents j = some a) :
    ∃ b, s.agents j = some b ∧ a.jsonlFile = b.jsonlFile ∧ (lockstepOf b → lockstepOf a) := by
  by_cases hj : j = agentId
  · subst hj
    cases hb : s.agents j with
    | none =>
      rw [processTranscriptLine_none s j item j hb] at ha
      cases ha
    | some agent =>
      obtain ⟨b', hb', hcore, hlock⟩ := processTranscriptLine_self s j item agent hb
      rw [hb'] at ha
      obtain ⟨e1, e2, e3, e4, e5, e6⟩ := hcore
      cases Option.some.inj ha
      exact ⟨agent, rfl, e4, hlock⟩
  · rw [processTranscriptLine_other s agentId item j hj] at ha
    exact ⟨a, ha, rfl, fun h => h⟩

theorem sysInv_of_track (s s1 : Sys)
    (hn : s1.nextAgentId = s.nextAgentId)
    (hcf : s1.claimedFiles = s.claimedFiles)
    (htr : ∀ j a, s1.agents j = some a →
      ∃ b, s.agents j = some b ∧ a.jsonlFile = b.jsonlFile ∧ (lockstepOf b → lockstepOf a))
    (h : SysInv s) : SysInv s1 := by
  obtain ⟨h1, h2, h3, h4⟩ := h
  refine ⟨?_, ?_, ?_, ?_⟩
  · intro j a ha
    obtain ⟨b, hb, _, _⟩ := htr j a ha
    rw [hn]
    exact h1 j b hb
  · intro j a ha
    obtain ⟨b, hb, he, _⟩ := htr j a ha
    rw [hcf, he]
    exact h2 j b hb
  · intro i j a b hij ha hb
    obtain ⟨a0, ha0, hea, _⟩ := htr i a ha
    obtain ⟨b0, hb0, heb, _⟩ := htr j b hb
    rw [hea, heb]
    exact h3 i j a0 b0 hij ha0 hb0
  · intro j a ha
    obtain ⟨b, hb, _, hl⟩ := htr j a ha
    exact hl (h4 j b hb)

theorem sysInv_processTranscriptLine (s : Sys) (agentId : Nat) (item : Option Record)
    (h : SysInv s) : SysInv (processTranscriptLine s agentId item).1 := by
  have hc := processTranscriptLine_const s agentId item
  exact sysInv_of_track s _ hc.1 hc.2.1 (fun j a ha => processTranscriptLine_track s agentId item j a ha) h

theorem deliverLines_const (parse : List Char → Option Record) (agentId : Nat)
    (lines : List (List Char)) : ∀ s : Sys,
    (deliverLines parse agentId s lines).1.nextAgentId = s.nextAgentId
    ∧ (deliverLines parse agentId s lines).1.claimedFiles = s.claimedFiles
    ∧ (deliverLines parse agentId s lines).1.fileWatchers = s.fileWatchers
    ∧ (deliverLines parse agentId s lines).1.pollingTimers = s.pollingTimers := by
  induction lines with
  | nil => intro s; exact ⟨rfl, rfl, rfl, rfl⟩
  | cons line rest ih =>
    intro s
    by_cases hw : line.all Char.isWhitespace = true
    · simpa [deliverLines, hw] using ih s
    · have h1 := processTranscriptLine_const s agentId (parse line)
      have h2 := ih (processTranscriptLine s agentId (parse line)).1
      simp only [deliverLines, if_neg hw]
      exact ⟨h2.1.trans h1.1, h2.2.1.trans h1.2.1, h2.2.2.1.trans h1.2.2.1,
        h2.2.2.2.trans h1.2.2.2⟩

theorem deliverLines_track (parse : List Char → Option Record) (agentId : Nat)
    (lines : List (List Char)) : ∀ (s : Sys) (j : Nat) (a : AgentState),
    (deliverLines parse agentId s lines).1.agents j = some a →
    ∃ b, s.agents j = some b ∧ a.jsonlFile = b.jsonlFile ∧ (lockstepOf b → lockstepOf a) := by
  induction lines with
  | nil => intro s j a ha; exact ⟨a, ha, rfl, fun h => h⟩
  | cons line rest ih =>
    intro s j a ha
    by_cases hw : line.all Char.isWhitespace = true
    · exact ih s j a (by simpa [deliverLines, hw] using ha)
    · simp only [deliverLines, if_neg hw] at ha
      obtain ⟨b1, hb1, he1, hl1⟩ := ih _ j a ha
      obtain ⟨b, hb, he, hl⟩ := processTranscriptLine_track s agentId (parse line) j b1 hb1
      exact ⟨b, hb, he1.trans he, fun h => hl1 (hl h)⟩

theorem pumpParsed_const (parse : List Char → Option Record) (s : Sys) (agentId : Nat)
    (view : Option (List Char)) :
    (pumpParsed parse s agentId view).1.nextAgentId = s.nextAgentId
    ∧ (pumpParsed parse s agentId view).1.claimedFiles = s.claimedFiles
    ∧ (pumpParsed parse s agentId view).1.fileWatchers = s.fileWatchers
    ∧ (pumpParsed parse s agentId view).1.pollingTimers = s.pollingTimers := by
  unfold pumpParsed
  cases hA : s.agents agentId with
  | none => exact ⟨rfl, rfl, rfl, rfl⟩
  | some a =>
    cases view with
    | none => exact ⟨rfl, rfl, rfl, rfl⟩
    | some f =>
      dsimp only
      by_cases hle : f.length ≤ a.fileOffset
      · rw [if_pos hle]
        exact ⟨rfl, rfl, rfl, rfl⟩
      · rw [if_neg hle]
        exact deliverLines_const parse agentId _ _

theorem pumpParsed_track (parse : List Char → Option Record) (s : Sys) (agentId : Nat)
    (view : Option (List Char)) (j : Nat) (a : AgentState)
    (ha : (pumpParsed parse s agentId view).1.agents j = some a) :
    ∃ b, s.agents j = some b ∧ a.jsonlFile = b.jsonlFile ∧ (lockstepOf b → lockstepOf a) := by
  rw [pumpParsed] at ha
  cases hA : s.agents agentId with
  | none =>
    simp only [hA] at ha
    exact ⟨a, ha, rfl, fun h => h⟩
  | some a0 =>
    simp only [hA] at ha
    cases view with
    | none => exact ⟨a, ha, rfl, fun h => h⟩
    | some f =>
      dsimp only at ha
      by_cases hle : f.length ≤ a0.fileOffset
      · rw [if_pos hle] at ha
        exact ⟨a, ha, rfl, fun h => h⟩
      · rw [if_neg hle] at ha
        obtain ⟨b1, hb1, he1, hl1⟩ := deliverLines_track parse agentId _ _ j a ha
        by_cases hj : j = agentId
        · subst hj
          simp only [setAgent, if_pos rfl] at hb1
          cases Option.some.inj hb1
          exact ⟨a0, hA, he1, fun h => hl1 h⟩
        · simp only [setAgent, if_neg hj] at hb1
          exact ⟨b1, hb1, he1, hl1⟩

theorem sysInv_pumpParsed (parse : List Char → Option Record) (s : Sys) (agentId : Nat)
    (view : Option (List Char)) (h : SysInv s) : SysInv (pumpParsed parse s agentId view).1 := by
  have hc := pumpParsed_const parse s agentId view
  exact sysInv_of_track s _ hc.1 hc.2.1 (fun j a ha => pumpParsed_track parse s agentId view j a ha) h

theorem fireWaitingTimer_pending (s : Sys) (agentId : Nat) (a0 : AgentState)
    (hp : (s.waitingTimers.any fun p => p.1 = agentId) = true)
    (hA : s.agents agentId = some a0) :
    fireWaitingTimer s agentId
      = (setAgent { s with waitingTimers := s.waitingTimers.filter (fun p => p.1 ≠ agentId) }
           agentId { a0 with isWaiting := true },
         [Event.agentStatus agentId "waiting"]) := by
  unfold fireWaitingTimer
  rw [if_pos hp]
  dsimp only
  rw [hA]

theorem sysInv_fireWaiting (s : Sys) (agentId : Nat) (h : SysInv s) :
    SysInv (fireWaitingTimer s agentId).1 := by
  by_cases hp : (s.waitingTimers.any fun p => p.1 = agentId) = true
  · cases hA : s.agents agentId with
    | none =>
      unfold fireWaitingTimer
      rw [if_pos hp]
      dsimp only
      rw [hA]
      exact h
    | some a0 =>
      rw [fireWaitingTimer_pending s agentId a0 hp hA]
      refine sysInv_of_track s _ rfl rfl ?_ h
      intro j a ha
      by_cases hj : j = agentId
      · subst hj
        simp only [setAgent, if_pos rfl] at ha
        cases Option.some.inj ha
        exact ⟨a0, hA, rfl, fun hx => hx⟩
      · simp only [setAgent, if_neg hj] at ha
        exact ⟨a, ha, rfl, fun hx => hx⟩
  · unfold fireWaitingTimer
    rw [if_neg hp]
    exact h

theorem sysInv_fireToolDone (s : Sys) (agentId : Nat) (toolId : String) (h : SysInv s) :
    SysInv (fireToolDoneTimer s agentId toolId).1 := by
  unfold fireToolDoneTimer
  by_cases hp : (agentId, toolId) ∈ s.pendingToolDone
  · rw [if_pos hp]
    exact h
  · rw [if_neg hp]
    exact h

theorem sysInv_createAgent (s : Sys) (term : Nat) (filePath projectDir : String)
    (h : SysInv s) (hf : filePath ∉ s.claimedFiles) :
    SysInv (createAgentFromFile s term filePath projectDir).1 := by
  obtain ⟨h1, h2, h3, h4⟩ := h
  refine ⟨?_, ?_, ?_, ?_⟩
  · intro j a ha
    simp only [createAgentFromFile] at ha ⊢
    by_cases hj : j = s.nextAgentId
    · omega
    · rw [if_neg hj] at ha
      have := h1 j a ha
      omega
  · intro j a ha
    simp only [createAgentFromFile] at ha ⊢
    by_cases hj : j = s.nextAgentId
    · rw [if_pos hj] at ha
      cases Option.some.inj ha
      exact (setAdd_mem s.claimedFiles filePath filePath).mpr (Or.inr rfl)
    · rw [if_neg hj] at ha
      exact (setAdd_mem s.claimedFiles filePath _).mpr (Or.inl (h2 j a ha))
  · intro i j a b hij ha hb
    simp only [createAgentFromFile] at ha hb
    by_cases hi : i = s.nextAgentId
    · rw [if_pos hi] at ha
      cases Option.some.inj ha
      have hjn : ¬ j = s.nextAgentId := fun hh => hij (hi.trans hh.symm)
      rw [if_neg hjn] at hb
      intro he
      have hfp : filePath = b.jsonlFile := he
      exact hf (by rw [hfp]; exact h2 j b hb)
    · rw [if_neg hi] at ha
      by_cases hjn : j = s.nextAgentId
      · rw [if_pos hjn] at hb
        cases Option.some.inj hb
        intro he
        have hfp : a.jsonlFile = filePath := he
        exact hf (by rw [← hfp]; exact h2 i a ha)
      · rw [if_neg hjn] at hb
        exact h3 i j a b hij ha hb
  · intro j a ha
    simp only [createAgentFromFile] at ha
    by_cases hj : j = s.nextAgentId
    · rw [if_pos hj] at ha
      cases Option.some.inj ha
      rfl
    · rw [if_neg hj] at ha
      exact h4 j a ha

theorem sysInv_removeAgent (s : Sys) (agentId : Nat) (h : SysInv s) :
    SysInv (removeAgent s agentId) := by
  obtain ⟨h1, h2, h3, h4⟩ := h
  unfold removeAgent
  cases hA : s.agents agentId with
  | none => exact ⟨h1, h2, h3, h4⟩
  | some agent =>
    refine ⟨?_, ?_, ?_, ?_⟩
    · intro j a ha
      dsimp only at ha ⊢
      by_cases hj : j = agentId
      · rw [if_pos hj] at ha
        cases ha
      · rw [if_neg hj] at ha
        exact h1 j a ha
    · intro j a ha
      dsimp only at ha ⊢
      by_cases hj : j = agentId
      · rw [if_pos hj] at ha
        cases ha
      · rw [if_neg hj] at ha
        have hmem := h2 j a ha
        have hne : a.jsonlFile ≠ agent.jsonlFile := h3 j agentId a agent hj ha hA
        simp [setDelete, List.mem_filter, hmem, hne]
    · intro i j a b hij ha hb
      dsimp only at ha hb
      by_cases hi : i = agentId
      · rw [if_pos hi] at ha
        cases ha
      · rw [if_neg hi] at ha
        by_cases hjn : j = agentId
        · rw [if_pos hjn] at hb
          cases hb
        · rw [if_neg hjn] at hb
          exact h3 i j a b hij ha hb
    · intro j a ha
      dsimp only at ha
      by_cases hj : j = agentId
      · rw [if_pos hj] at ha
        cases ha
      · rw [if_neg hj] at ha
        exact h4 j a ha

theorem sysInv_scanFiles (term : Nat) (projectDir : String) (dir : List FileEntry)
    (now maxAge : Nat) (files : List String) : ∀ s : Sys, SysInv s →
    SysInv (scanFiles term projectDir dir now maxAge s files).1 := by
  induction files with
  | nil => intro s h; exact h
  | cons file rest ih =>
    intro s h
    by_cases hg : file ∉ s.claimedFiles ∧ isFileRecent maxAge now dir file = true
    · simp only [scanFiles, if_pos hg]
      exact ih _ (sysInv_createAgent s term file projectDir h hg.1)
    · simp only [scanFiles, if_neg hg]
      exact ih s h

theorem sysInv_closeAgents (term : Nat) (ids : List Nat) : ∀ s : Sys, SysInv s →
    SysInv (closeAgents term s ids).1 := by
  induction ids with
  | nil => intro s h; exact h
  | cons j rest ih =>
    intro s h
    cases hA : s.agents j with
    | none =>
      simp only [closeAgents, hA]
      exact ih s h
    | some a =>
      by_cases ht : a.terminalRef = term
      · simp only [closeAgents, hA, if_pos ht]
        exact ih _ (sysInv_removeAgent s j h)
      · simp only [closeAgents, hA, if_neg ht]
        exact ih s h

theorem sysInv_scan (s : Sys) (term : Nat) (sid : Option String) (projectDir : String)
    (dir : List FileEntry) (now maxAge : Nat) (h : SysInv s) :
    SysInv (scanForNewFiles s term sid projectDir dir now maxAge).1 := by
  unfold scanForNewFiles
  cases sid with
  | none =>
    exact sysInv_scanFiles term projectDir dir now maxAge _ s h
  | some sessionId =>
    by_cases hg : (dir.any fun e => e.path = pathJoin projectDir (sessionId ++ ".jsonl")) = true
        ∧ pathJoin projectDir (sessionId ++ ".jsonl") ∉ s.claimedFiles
    · simp only [if_pos hg]
      exact sysInv_scanFiles term projectDir dir now maxAge _ _
        (sysInv_createAgent s term _ projectDir h hg.2)
    · simp only [if_neg hg]
      exact sysInv_scanFiles term projectDir dir now maxAge _ s h

theorem sysInv_step (s : Sys) (act : Act) (h : SysInv s) : SysInv (step s act).1 := by
  cases act with
  | deliver agentId item => exact sysInv_processTranscriptLine s agentId item h
  | pump parse agentId view => exact sysInv_pumpParsed parse s agentId view h
  | fireWaiting agentId => exact sysInv_fireWaiting s agentId h
  | fireToolDone agentId toolId => exact sysInv_fireToolDone s agentId toolId h
  | closeTerm term => exact sysInv_closeAgents term (List.range s.nextAgentId) s h
  | scanTick term sid projectDir dir now maxAge =>
    exact sysInv_scan s term sid projectDir dir now maxAge h

theorem sysInv_run (acts : List Act) : ∀ s : Sys, SysInv s → SysInv (run s acts).1 := by
  induction acts with
  | nil => intro s h; exact h
  | cons a as ih => intro s h; exact ih _ (sysInv_step s a h)

theorem sysInv_init : SysInv initSys :=
  ⟨fun j a h => by simp [initSys] at h,
   fun j a h => by simp [initSys] at h,
   fun i j a b hij ha hb => by simp [initSys] at ha,
   fun j a h => by simp [initSys] at h⟩

theorem pumpAllB_append (a : AgentState) (vs1 vs2 : List (Option (List Char))) :
    pumpAllB a (vs1 ++ vs2)
      = ((pumpAllB (pumpAllB a vs1).1 vs2).1,
         (pumpAllB a vs1).2 ++ (pumpAllB (pumpAllB a vs1).1 vs2).2) := by
  induction vs1 generalizing a with
  | nil => simp [pumpAllB]
  | cons v vs ih => simp [pumpAllB, ih, List.append_assoc]

/-- **C2** — no data loss across partial lines: for an append-only history of
file views (each a prefix of the final content `F`), any chunking of pump
invocations ending with one that observes `F` delivers complete lines which,
rejoined each with its terminating newline and followed by the final
`lineBuffer` carry, are exactly `F`; the carry holds no newline, so the
delivered bytes are the file's byte stream up to the last newline with no
byte duplicated and none dropped. -/
theorem c2_no_data_loss (i term : Nat) (filePath projectDir : String)
    (F : List Char) (views : List (Option (List Char)))
    (h : (views.all fun v => match v with | none => true | some f => leadsList f F) = true) :
    joinNl (pumpAllB (initialAgent i term filePath projectDir) (views ++ [some F])).2
        ++ (pumpAllB (initialAgent i term filePath projectDir) (views ++ [some F])).1.lineBuffer
      = F
    ∧ '\n' ∉ (pumpAllB (initialAgent i term filePath projectDir) (views ++ [some F])).1.lineBuffer := by
  have hAll : ∀ f, some f ∈ views ++ [some F] → leadsList f F = true := by
    intro f hf
    rcases List.mem_append.mp hf with hf | hf
    · simpa using List.all_eq_true.mp h _ hf
    · cases Option.some.inj (List.mem_singleton.mp hf)
      exact (leadsList_iff F F).mpr ⟨[], List.append_nil F⟩
  have hbase : TailInv F (initialAgent i term filePath projectDir) [] :=
    ⟨by simp [initialAgent, joinNl], by simp [initialAgent], by simp [initialAgent]⟩
  obtain ⟨h1, h2, h3⟩ :=
    pumpAllB_inv F (views ++ [some F]) (initialAgent i term filePath projectDir) [] hAll hbase
  have hmid := pumpAllB_inv F views (initialAgent i term filePath projectDir) []
    (fun f hf => hAll f (List.mem_append.mpr (Or.inl hf))) hbase
  have hoff : (pumpAllB (initialAgent i term filePath projectDir) (views ++ [some F])).1.fileOffset
      = F.length := by
    rw [pumpAllB_append]
    simp only [pumpAllB]
    exact readNewLinesB_full F _ hmid.2.1
  refine ⟨?_, h3⟩
  have h1' : joinNl (pumpAllB (initialAgent i term filePath projectDir) (views ++ [some F])).2
      ++ (pumpAllB (initialAgent i term filePath projectDir) (views ++ [some F])).1.lineBuffer
      = F.take (pumpAllB (initialAgent i term filePath projectDir) (views ++ [some F])).1.fileOffset := by
    simpa using h1
  rw [h1', hoff, List.take_length]

/-- Witness for C2 at a concrete two-chunk history of an agent's file. -/
theorem c2_no_data_loss_witness :
    ((([some ['a'], some ['a', 'b', '\n', 'c']] : List (Option (List Char))).all
        fun v => match v with | none => true | some f => leadsList f ['a', 'b', '\n', 'c', '\n', 'd']) = true)
    ∧ joinNl (pumpAllB (initialAgent 1 7 "d/s.jsonl" "d")
          ([some ['a'], some ['a', 'b', '\n', 'c']] ++ [some ['a', 'b', '\n', 'c', '\n', 'd']])).2
        ++ (pumpAllB (initialAgent 1 7 "d/s.jsonl" "d")
          ([some ['a'], some ['a', 'b', '\n', 'c']] ++ [some ['a', 'b', '\n', 'c', '\n', 'd']])).1.lineBuffer
        = ['a', 'b', '\n', 'c', '\n', 'd']
    ∧ '\n' ∉ (pumpAllB (initialAgent 1 7 "d/s.jsonl" "d")
          ([some ['a'], some ['a', 'b', '\n', 'c']] ++ [some ['a', 'b', '\n', 'c', '\n', 'd']])).1.lineBuffer :=
  ⟨by decide,
   (c2_no_data_loss 1 7 "d/s.jsonl" "d" ['a', 'b', '\n', 'c', '\n', 'd']
     [some ['a'], some ['a', 'b', '\n', 'c']] (by decide)).1,
   (c2_no_data_loss 1 7 "d/s.jsonl" "d" ['a', 'b', '\n', 'c', '\n', 'd']
     [some ['a'], some ['a', 'b', '\n', 'c']] (by decide)).2⟩


theorem coreEq_trans {x y z : AgentState} (h1 : coreEq x y) (h2 : coreEq y z) : coreEq x z := by
  obtain ⟨a1, a2, a3, a4, a5, a6⟩ := h1
  obtain ⟨b1, b2, b3, b4, b5, b6⟩ := h2
  exact ⟨a1.trans b1, a2.trans b2, a3.trans b3, a4.trans b4, a5.trans b5, a6.trans b6⟩

theorem deliverLines_core (parse : List Char → Option Record) (agentId : Nat)
    (lines : List (List Char)) : ∀ (s : Sys) (b : AgentState), s.agents agentId = some b →
    ∃ b', (deliverLines parse agentId s lines).1.agents agentId = some b' ∧ coreEq b' b := by
  induction lines with
  | nil => intro s b hb; exact ⟨b, hb, coreEq_rfl b⟩
  | cons line rest ih =>
    intro s b hb
    by_cases hw : line.all Char.isWhitespace = true
    · simpa [deliverLines, hw] using ih s b hb
    · simp only [deliverLines, if_neg hw]
      obtain ⟨b1, hb1, hcore1, _⟩ := processTranscriptLine_self s agentId (parse line) b hb
      obtain ⟨b2, hb2, hcore2⟩ := ih _ b1 hb1
      exact ⟨b2, hb2, coreEq_trans hcore2 hcore1⟩

theorem pumpParsed_offset (parse : List Char → Option Record) (s : Sys) (agentId : Nat)
    (view : Option (List Char)) (a : AgentState) (hA : s.agents agentId = some a) :
    ∃ a', (pumpParsed parse s agentId view).1.agents agentId = some a'
      ∧ a.fileOffset ≤ a'.fileOffset
      ∧ ∀ f, view = some f → a'.fileOffset ≤ max a.fileOffset f.length := by
  unfold pumpParsed
  rw [hA]
  cases view with
  | none => exact ⟨a, hA, le_refl _, fun f hf => by cases hf⟩
  | some f =>
    dsimp only
    by_cases hle : f.length ≤ a.fileOffset
    · rw [if_pos hle]
      exact ⟨a, hA, le_refl _, fun g hg => by cases Option.some.inj hg; exact le_max_left _ _⟩
    · rw [if_neg hle]
      have hs1 : (setAgent s agentId { a with
          fileOffset := f.length,
          lineBuffer := (splitOnNl (a.lineBuffer ++ List.drop a.fileOffset f)).getLastD [] }).agents agentId
          = some { a with
            fileOffset := f.length,
            lineBuffer := (splitOnNl (a.lineBuffer ++ List.drop a.fileOffset f)).getLastD [] } := by
        simp [setAgent]
      obtain ⟨a', ha', hcore⟩ := deliverLines_core parse agentId _ _ _ hs1
      refine ⟨a', ha', ?_, ?_⟩
      · rw [hcore.2.2.2.2.1]
        dsimp only
        omega
      · intro g hg
        cases Option.some.inj hg
        rw [hcore.2.2.2.2.1]
        simp

theorem pumpMany_offset (parse : List Char → Option Record) (agentId : Nat)
    (views : List (Option (List Char))) : ∀ (s : Sys) (a : AgentState),
    s.agents agentId = some a →
    ∃ a', (pumpMany parse s agentId views).1.agents agentId = some a'
      ∧ a.fileOffset ≤ a'.fileOffset := by
  induction views with
  | nil => intro s a hA; exact ⟨a, hA, le_refl _⟩
  | cons v vs ih =>
    intro s a hA
    obtain ⟨a1, hA1, hle1, _⟩ := pumpParsed_offset parse s agentId v a hA
    obtain ⟨a2, hA2, hle2⟩ := ih _ a1 hA1
    exact ⟨a2, by simpa [pumpMany] using hA2, le_trans hle1 hle2⟩

/-- **C3** — offset monotonicity and redundant-wake safety: a pump whose
observed size is at most the agent's `fileOffset` returns the state and the
event list unchanged; a single pump never decreases `fileOffset` and, when
it reads, never moves the offset beyond the observed file size; along any
sequence of pump invocations (from either wake source, in any interleaving)
`fileOffset` is non-decreasing. -/
theorem c3_offset_monotonicity :
    (∀ (parse : List Char → Option Record) (s : Sys) (agentId : Nat) (a : AgentState)
        (f : List Char), s.agents agentId = some a → f.length ≤ a.fileOffset →
        pumpParsed parse s agentId (some f) = (s, []))
    ∧ (∀ (parse : List Char → Option Record) (s : Sys) (agentId : Nat)
        (view : Option (List Char)) (a : AgentState), s.agents agentId = some a →
        ∃ a', (pumpParsed parse s agentId view).1.agents agentId = some a'
          ∧ a.fileOffset ≤ a'.fileOffset
          ∧ ∀ f, view = some f → a'.fileOffset ≤ max a.fileOffset f.length)
    ∧ (∀ (parse : List Char → Option Record) (s : Sys) (agentId : Nat)
        (views : List (Option (List Char))) (a : AgentState), s.agents agentId = some a →
        ∃ a', (pumpMany parse s agentId views).1.agents agentId = some a'
          ∧ a.fileOffset ≤ a'.fileOffset) := by
  refine ⟨?_,
    fun parse s agentId view a hA => pumpParsed_offset parse s agentId view a hA,
    fun parse s agentId views a hA => pumpMany_offset parse agentId views s a hA⟩
  intro parse s agentId a f hA hle
  unfold pumpParsed
  rw [hA]
  dsimp only
  rw [if_pos hle]

/-- Witness for C3: a redundant wake of the freshly claimed agent, with a
view no longer than the consumed offset, is a strict no-op. -/
theorem c3_offset_monotonicity_witness :
    (run initSys cxActs0).1.agents 1 = some csAgent
    ∧ ([] : List Char).length ≤ csAgent.fileOffset
    ∧ pumpParsed (fun _ => none) (run initSys cxActs0).1 1 (some [])
        = ((run initSys cxActs0).1, []) :=
  ⟨by decide, by decide,
   c3_offset_monotonicity.1 (fun _ => none) (run initSys cxActs0).1 1 csAgent []
     (by decide) (by decide)⟩

/-- **C1** — at-most-one-claim: in every state reachable by any sequence of
scheduler wakeups (scan ticks of any number of session hosts with any
session ids and listings, pumps, timer firings, terminal closes), no
transcript path is owned by more than one live agent: both the
deterministic and the opportunistic pass check the claim set before
`createAgentFromFile`, which registers the agent and claims the path in the
same step. -/
theorem c1_at_most_one_claim (acts : List Act) (i j : Nat) (a b : AgentState)
    (hij : i ≠ j)
    (ha : (run initSys acts).1.agents i = some a)
    (hb : (run initSys acts).1.agents j = some b) :
    a.jsonlFile ≠ b.jsonlFile :=
  (sysInv_run acts initSys sysInv_init).2.2.1 i j a b hij ha hb

/-- Witness for C1: one tick opportunistically claims two listed files for
two distinct agents with distinct transcript paths. -/
theorem c1_at_most_one_claim_witness :
    (1 : Nat) ≠ 2
    ∧ (run initSys c1Acts).1.agents 1 = some c1AgentA
    ∧ (run initSys c1Acts).1.agents 2 = some c1AgentB
    ∧ c1AgentA.jsonlFile ≠ c1AgentB.jsonlFile :=
  ⟨by decide, by decide, by decide,
   c1_at_most_one_claim c1Acts 1 2 c1AgentA c1AgentB (by decide) (by decide) (by decide)⟩

/-- **C10** — lockstep of the open-tool bookkeeping: in every reachable
state, each live agent's `activeToolIds` equals the key list of its
`activeToolStatuses` (tool starts add to both, tool results remove from
both, a new user turn clears both). -/
theorem c10_tool_lockstep (acts : List Act) (j : Nat) (a : AgentState)
    (ha : (run initSys acts).1.agents j = some a) :
    a.activeToolIds = a.activeToolStatuses.map Prod.fst :=
  (sysInv_run acts initSys sysInv_init).2.2.2 j a ha

/-- Witness for C10 on an agent with one open tool. -/
theorem c10_tool_lockstep_witness :
    (run initSys c6Pre).1.agents 1 = some c6PreAgent
    ∧ c6PreAgent.activeToolIds = c6PreAgent.activeToolStatuses.map Prod.fst :=
  ⟨by decide, c10_tool_lockstep c6Pre 1 c6PreAgent (by decide)⟩

theorem turnDuration_eq (s : Sys) (agentId : Nat) (agent : AgentState)
    (hA : s.agents agentId = some agent) :
    processTranscriptLine s agentId (some (Record.system "turn_duration"))
      = (setAgent (cancelWaitingTimer s agentId) agentId { agent with isWaiting := true },
         [Event.agentStatus agentId "waiting"]) := by
  unfold processTranscriptLine
  rw [hA]
  dsimp only
  rw [if_pos rfl]
  dsimp only [cancelWaitingTimer]
  rw [hA]

/-- **C5** — debounce precedence: processing the authoritative
turn-completion record cancels the pending debounce timer and emits exactly
the one authoritative "waiting" status; a timer that is not pending never
fires (so the text-only heuristic emits nothing once cancelled); and
cancelling with no pending timer changes nothing at all, so no later
transition un-arms an already-fired "waiting" (a fired timer has already
left the pending map). -/
theorem c5_debounce_precedence :
    (∀ (s : Sys) (agentId : Nat) (agent : AgentState), s.agents agentId = some agent →
      processTranscriptLine s agentId (some (Record.system "turn_duration"))
        = (setAgent (cancelWaitingTimer s agentId) agentId { agent with isWaiting := true },
           [Event.agentStatus agentId "waiting"])
      ∧ ((processTranscriptLine s agentId (some (Record.system "turn_duration"))).1.waitingTimers.any
          (fun p => p.1 = agentId)) = false)
    ∧ (∀ (s : Sys) (agentId : Nat),
        (s.waitingTimers.any fun p => p.1 = agentId) = false →
        fireWaitingTimer s agentId = (s, []))
    ∧ (∀ (s : Sys) (agentId : Nat),
        (s.waitingTimers.any fun p => p.1 = agentId) = false →
        cancelWaitingTimer s agentId = s) := by
  refine ⟨?_, ?_, ?_⟩
  · intro s agentId agent hA
    have heq := turnDuration_eq s agentId agent hA
    refine ⟨heq, ?_⟩
    rw [heq]
    exact any_filter_ne s.waitingTimers agentId
  · intro s agentId hp
    unfold fireWaitingTimer
    rw [if_neg (by simp [hp])]
  · intro s agentId hp
    have hfe : s.waitingTimers.filter (fun p => p.1 ≠ agentId) = s.waitingTimers := by
      apply List.filter_eq_self.mpr
      intro p hpmem
      simp only [List.any_eq_false] at hp
      simpa using hp p hpmem
    unfold cancelWaitingTimer
    rw [hfe]

/-- Witness for C5: with the debounce timer armed by a text-only record, the
turn-completion record cancels it and emits the single "waiting". -/
theorem c5_debounce_precedence_witness :
    (run initSys c5Acts).1.agents 1 = some csAgent
    ∧ processTranscriptLine (run initSys c5Acts).1 1 (some (Record.system "turn_duration"))
        = (setAgent (cancelWaitingTimer (run initSys c5Acts).1 1) 1 { csAgent with isWaiting := true },
           [Event.agentStatus 1 "waiting"])
    ∧ ((processTranscriptLine (run initSys c5Acts).1 1
          (some (Record.system "turn_duration"))).1.waitingTimers.any (fun p => p.1 = 1)) = false :=
  ⟨by decide,
   (c5_debounce_precedence.1 (run initSys c5Acts).1 1 csAgent (by decide)).1,
   (c5_debounce_precedence.1 (run initSys c5Acts).1 1 csAgent (by decide)).2⟩

/-- **C7** — text-only debounce behaviour: an assistant record containing a
text block and no tool-invocation block arms the single 2000 ms debounce
timer (re-arming replaces any pending one) and emits nothing; if that timer
then fires, it sets `isWaiting` and emits exactly one "waiting" status, and
afterwards no timer is pending for the agent. -/
theorem c7_text_debounce (s : Sys) (agentId : Nat) (agent : AgentState) (blocks : List ABlock)
    (hA : s.agents agentId = some agent)
    (hnt : hasToolUse blocks = false)
    (ht : hasText blocks = true) :
    processTranscriptLine s agentId (some (Record.assistant blocks))
      = (startWaitingTimer s agentId 2000, [])
    ∧ (startWaitingTimer s agentId 2000).waitingTimers.filter (fun p => p.1 = agentId)
        = [(agentId, 2000)]
    ∧ (fireWaitingTimer (startWaitingTimer s agentId 2000) agentId).2
        = [Event.agentStatus agentId "waiting"]
    ∧ (∃ a', (fireWaitingTimer (startWaitingTimer s agentId 2000) agentId).1.agents agentId
          = some a' ∧ a'.isWaiting = true)
    ∧ ((fireWaitingTimer (startWaitingTimer s agentId 2000) agentId).1.waitingTimers.any
        (fun p => p.1 = agentId)) = false := by
  have hpend : ((startWaitingTimer s agentId 2000).waitingTimers.any fun p => p.1 = agentId)
      = true := by
    simp [startWaitingTimer]
  have hfire := fireWaitingTimer_pending (startWaitingTimer s agentId 2000) agentId agent hpend hA
  refine ⟨?_, ?_, ?_, ?_, ?_⟩
  · unfold processTranscriptLine
    rw [hA]
    dsimp only
    rw [if_neg (by simp [hnt]), if_pos ht]
  · show ((s.waitingTimers.filter (fun (p : Nat × Nat) => p.1 ≠ agentId)) ++ [(agentId, 2000)]).filter
        (fun (p : Nat × Nat) => p.1 = agentId) = [(agentId, 2000)]
    rw [List.filter_append, filter_eq_after_ne]
    simp
  · rw [hfire]
  · rw [hfire]
    exact ⟨{ agent with isWaiting := true }, by simp [setAgent], rfl⟩
  · rw [hfire]
    exact any_filter_ne (startWaitingTimer s agentId 2000).waitingTimers agentId

/-- Witness for C7 on the freshly claimed agent and a one-block record. -/
theorem c7_text_debounce_witness :
    (run initSys cxActs0).1.agents 1 = some csAgent
    ∧ hasToolUse [ABlock.text] = false
    ∧ hasText [ABlock.text] = true
    ∧ processTranscriptLine (run initSys cxActs0).1 1 (some (Record.assistant [ABlock.text]))
        = (startWaitingTimer (run initSys cxActs0).1 1 2000, [])
    ∧ (fireWaitingTimer (startWaitingTimer (run initSys cxActs0).1 1 2000) 1).2
        = [Event.agentStatus 1 "waiting"] :=
  ⟨by decide, by decide, by decide,
   (c7_text_debounce (run initSys cxActs0).1 1 csAgent [ABlock.text]
     (by decide) (by decide) (by decide)).1,
   (c7_text_debounce (run initSys cxActs0).1 1 csAgent [ABlock.text]
     (by decide) (by decide) (by decide)).2.2.1⟩

/-- Counterexample to C6 as stated: with tool "t1" still open (no
tool-result processed), the authoritative turn-completion record emits
`agentStatus 1 "waiting"` while `activeToolIds` is non-empty, and leaves
the tool open. -/
theorem c6_counterexample :
    (step (run initSys c6Pre).1 (Act.deliver 1 (some (Record.system "turn_duration")))).2
      = [Event.agentStatus 1 "waiting"]
    ∧ ((run initSys c6Pre).1.agents 1).map (fun a => a.activeToolIds) = some ["t1"]
    ∧ ((step (run initSys c6Pre).1
          (Act.deliver 1 (some (Record.system "turn_duration")))).1.agents 1).map
        (fun a => a.activeToolIds) = some ["t1"] :=
  ⟨by decide, by decide, by decide⟩

/-- **C6 amended** — the exclusivity holds only for the tool-invocation
transition: an assistant record with a tool-invocation block always cancels
the debounce timer, clears `isWaiting` and reports "active" first; but the
turn-completion transition emits "waiting" unconditionally, leaving
`activeToolIds` untouched even when non-empty, so a "waiting" status can be
reported while the agent has an open tool. -/
theorem c6_waiting_active_amended :
    (∀ (s : Sys) (agentId : Nat) (agent : AgentState) (blocks : List ABlock),
      s.agents agentId = some agent → hasToolUse blocks = true →
      (processTranscriptLine s agentId (some (Record.assistant blocks))).2.head?
          = some (Event.agentStatus agentId "active")
      ∧ ((processTranscriptLine s agentId (some (Record.assistant blocks))).1.waitingTimers.any
          (fun p => p.1 = agentId)) = false
      ∧ ∃ a', (processTranscriptLine s agentId (some (Record.assistant blocks))).1.agents agentId
            = some a' ∧ a'.isWaiting = false)
    ∧ (∀ (s : Sys) (agentId : Nat) (agent : AgentState),
        s.agents agentId = some agent →
        (processTranscriptLine s agentId (some (Record.system "turn_duration"))).2
            = [Event.agentStatus agentId "waiting"]
        ∧ ∃ a', (processTranscriptLine s agentId
              (some (Record.system "turn_duration"))).1.agents agentId = some a'
            ∧ a'.activeToolIds = agent.activeToolIds ∧ a'.isWaiting = true) := by
  constructor
  · intro s agentId agent blocks hA htu
    have heq : processTranscriptLine s agentId (some (Record.assistant blocks))
        = (setAgent (cancelWaitingTimer s agentId) agentId
            (toolUseFold agentId { agent with isWaiting := false } blocks).1,
           Event.agentStatus agentId "active"
             :: (toolUseFold agentId { agent with isWaiting := false } blocks).2) := by
      unfold processTranscriptLine
      rw [hA]
      dsimp only
      rw [if_pos htu]
    refine ⟨by rw [heq]; rfl, ?_, ?_⟩
    · rw [heq]
      exact any_filter_ne s.waitingTimers agentId
    · rw [heq]
      refine ⟨(toolUseFold agentId { agent with isWaiting := false } blocks).1,
        by simp [setAgent], ?_⟩
      have h := (toolUseFold_core agentId blocks { agent with isWaiting := false }).2.1
      simpa using h
  · intro s agentId agent hA
    have heq := turnDuration_eq s agentId agent hA
    refine ⟨by rw [heq], ?_⟩
    rw [heq]
    exact ⟨{ agent with isWaiting := true }, by simp [setAgent], rfl, rfl⟩

/-- Witness for the amended C6 at the concrete open-tool state. -/
theorem c6_waiting_active_amended_witness :
    (run initSys c6Pre).1.agents 1 = some c6PreAgent
    ∧ (processTranscriptLine (run initSys c6Pre).1 1 (some (Record.system "turn_duration"))).2
        = [Event.agentStatus 1 "waiting"]
    ∧ ∃ a', (processTranscriptLine (run initSys c6Pre).1 1
          (some (Record.system "turn_duration"))).1.agents 1 = some a'
        ∧ a'.activeToolIds = c6PreAgent.activeToolIds ∧ a'.isWaiting = true :=
  ⟨by decide,
   (c6_waiting_active_amended.2 (run initSys c6Pre).1 1 c6PreAgent (by decide)).1,
   (c6_waiting_active_amended.2 (run initSys c6Pre).1 1 c6PreAgent (by decide)).2⟩

/-- Counterexample to C4 as stated: after tool "t1" completed (one matched
result, one emitted `agentToolDone`), a second tool-result for the same —
already removed — id still schedules and later emits a second
`agentToolDone 1 "t1"`: the trace carries two tool-done events for a single
`agentToolStart`, so the unmatched result was not a no-op. -/
theorem c4_counterexample :
    (run initSys c4Acts).2
      = [Event.agentCreated 1, Event.agentStatus 1 "active",
         Event.agentToolStart 1 "t1" "Reading ", Event.agentToolDone 1 "t1",
         Event.agentToolDone 1 "t1"] := by decide

/-- **C4 amended** — unmatched tool-result: processing a user record whose
single tool-result block names an id that is in neither `activeToolIds` nor
the status-map keys leaves every agent field, the claim set and the timers
unchanged and emits nothing immediately, but still appends one delayed
`agentToolDone` emission, which later fires; hence `agentToolDone` events
are not always preceded by a still-open `agentToolStart`. -/
theorem c4_unmatched_tool_result_amended (s : Sys) (agentId : Nat) (agent : AgentState)
    (tid : String)
    (hA : s.agents agentId = some agent)
    (hid : tid ≠ "")
    (h1 : tid ∉ agent.activeToolIds)
    (h2 : tid ∉ agent.activeToolStatuses.map Prod.fst) :
    processTranscriptLine s agentId
        (some (Record.user (UContent.arr [UBlock.tool_result (some tid)])))
      = ({ s with pendingToolDone := s.pendingToolDone ++ [(agentId, tid)] }, [])
    ∧ (fireToolDoneTimer { s with pendingToolDone := s.pendingToolDone ++ [(agentId, tid)] }
        agentId tid).2 = [Event.agentToolDone agentId tid] := by
  have hida : agent.activeToolIds.filter (fun y => y ≠ tid) = agent.activeToolIds := by
    apply List.filter_eq_self.mpr
    intro y hy
    simp only [decide_eq_true_eq]
    intro he
    exact h1 (he ▸ hy)
  have hsta : agent.activeToolStatuses.filter (fun p => p.1 ≠ tid)
      = agent.activeToolStatuses := by
    apply List.filter_eq_self.mpr
    intro p hp
    simp only [decide_eq_true_eq]
    intro he
    exact h2 (he ▸ List.mem_map_of_mem Prod.fst hp)
  constructor
  · unfold processTranscriptLine
    rw [hA]
    dsimp only
    rw [if_pos (show hasToolResult [UBlock.tool_result (some tid)] = true from rfl)]
    dsimp only [toolResultFold]
    rw [if_neg hid]
    rw [hida, hsta]
    have hsa : (setAgent s agentId { agent with
        activeToolIds := agent.activeToolIds,
        activeToolStatuses := agent.activeToolStatuses }) = s := by
      show setAgent s agentId agent = s
      unfold setAgent
      have hfun : (fun j => if j = agentId then some agent else s.agents j) = s.agents := by
        funext j
        by_cases hj : j = agentId
        · rw [if_pos hj, hj, hA]
        · rw [if_neg hj]
      rw [hfun]
    rw [hsa]
  · unfold fireToolDoneTimer
    rw [if_pos (by simp)]

/-- Witness for the amended C4 at the concrete post-completion state. -/
theorem c4_unmatched_tool_result_amended_witness :
    (run initSys c10Acts).1.agents 1 = some csAgent
    ∧ ("t1" : String) ≠ ""
    ∧ "t1" ∉ csAgent.activeToolIds
    ∧ "t1" ∉ csAgent.activeToolStatuses.map Prod.fst
    ∧ processTranscriptLine (run initSys c10Acts).1 1
        (some (Record.user (UContent.arr [UBlock.tool_result (some "t1")])))
      = ({ (run initSys c10Acts).1 with
            pendingToolDone := (run initSys c10Acts).1.pendingToolDone ++ [(1, "t1")] }, []) :=
  ⟨by decide, by decide, by decide, by decide,
   (c4_unmatched_tool_result_amended (run initSys c10Acts).1 1 csAgent "t1"
     (by decide) (by decide) (by decide) (by decide)).1⟩

/-- Counterexample to C9 as stated: the delayed tool-done timer scheduled by
the matched tool-result is neither tracked nor cancelled by teardown, so it
fires after the terminal close and emits `agentToolDone 1 "t1"` strictly
after `agentClosed 1`. -/
theorem c9_counterexample :
    (run initSys c9Acts).2
      = [Event.agentCreated 1, Event.agentStatus 1 "active",
         Event.agentToolStart 1 "t1" "Reading ", Event.agentClosed 1,
         Event.agentToolDone 1 "t1"] := by decide

/-- **C9 amended** — teardown: `removeAgent` closes the watcher, clears the
poll interval, cancels the debounce timer, releases the claim and deletes
the agent; afterwards the debounce-timer callback cannot fire, and a pump
or record delivery for the removed id is a strict no-op.  The delayed
tool-done timers, however, survive teardown (the code keeps no handle to
them) and still emit `agentToolDone` for the removed agent id. -/
theorem c9_teardown_amended (s : Sys) (agentId : Nat) (agent : AgentState)
    (hA : s.agents agentId = some agent) :
    (removeAgent s agentId).agents agentId = none
    ∧ (removeAgent s agentId).fileWatchers = s.fileWatchers.filter (fun j => j ≠ agentId)
    ∧ (removeAgent s agentId).pollingTimers = s.pollingTimers.filter (fun j => j ≠ agentId)
    ∧ (removeAgent s agentId).waitingTimers = s.waitingTimers.filter (fun p => p.1 ≠ agentId)
    ∧ (removeAgent s agentId).claimedFiles = setDelete s.claimedFiles agent.jsonlFile
    ∧ fireWaitingTimer (removeAgent s agentId) agentId = (removeAgent s agentId, [])
    ∧ (∀ (parse : List Char → Option Record) (view : Option (List Char)),
        pumpParsed parse (removeAgent s agentId) agentId view = (removeAgent s agentId, []))
    ∧ (∀ item, processTranscriptLine (removeAgent s agentId) agentId item
        = (removeAgent s agentId, []))
    ∧ (removeAgent s agentId).pendingToolDone = s.pendingToolDone
    ∧ (∀ tid, (agentId, tid) ∈ s.pendingToolDone →
        (fireToolDoneTimer (removeAgent s agentId) agentId tid).2
          = [Event.agentToolDone agentId tid]) := by
  have hrm : removeAgent s agentId = { s with
      agents := fun j => if j = agentId then none else s.agents j,
      claimedFiles := setDelete s.claimedFiles agent.jsonlFile,
      waitingTimers := s.waitingTimers.filter (fun p => p.1 ≠ agentId),
      fileWatchers := s.fileWatchers.filter (fun j => j ≠ agentId),
      pollingTimers := s.pollingTimers.filter (fun j => j ≠ agentId) } := by
    unfold removeAgent
    rw [hA]
  have hnone : (removeAgent s agentId).agents agentId = none := by
    rw [hrm]
    simp
  refine ⟨hnone, by rw [hrm], by rw [hrm], by rw [hrm], by rw [hrm], ?_, ?_, ?_, by rw [hrm], ?_⟩
  · have hany : ((removeAgent s agentId).waitingTimers.any fun p => p.1 = agentId) = false := by
      rw [hrm]
      exact any_filter_ne s.waitingTimers agentId
    unfold fireWaitingTimer
    rw [if_neg (by simp [hany])]
  · intro parse view
    unfold pumpParsed
    rw [hnone]
  · intro item
    unfold processTranscriptLine
    rw [hnone]
  · intro tid hmem
    unfold fireToolDoneTimer
    rw [if_pos (by rw [hrm]; exact hmem)]

/-- Witness for the amended C9 at the concrete post-completion state with a
pending delayed tool-done emission. -/
theorem c9_teardown_amended_witness :
    (run initSys c10Acts).1.agents 1 = some csAgent
    ∧ (1, "t1") ∈ (run initSys c10Acts).1.pendingToolDone
    ∧ (removeAgent (run initSys c10Acts).1 1).agents 1 = none
    ∧ (fireToolDoneTimer (removeAgent (run initSys c10Acts).1 1) 1 "t1").2
        = [Event.agentToolDone 1 "t1"] :=
  ⟨by decide, by decide,
   (c9_teardown_amended (run initSys c10Acts).1 1 csAgent (by decide)).1,
   (c9_teardown_amended (run initSys c10Acts).1 1 csAgent
     (by decide)).2.2.2.2.2.2.2.2.2 "t1" (by decide)⟩

theorem createAgent_claims (s : Sys) (term : Nat) (filePath projectDir x : String) :
    x ∈ (createAgentFromFile s term filePath projectDir).1.claimedFiles
      ↔ x ∈ s.claimedFiles ∨ x = filePath := by
  simp only [createAgentFromFile]
  exact setAdd_mem s.claimedFiles filePath x

theorem scanFiles_claims (term : Nat) (projectDir : String) (dir : List FileEntry)
    (now maxAge : Nat) (files : List String) : ∀ (s : Sys) (f : String),
    f ∈ (scanFiles term projectDir dir now maxAge s files).1.claimedFiles →
    f ∈ s.claimedFiles ∨ (f ∈ files ∧ isFileRecent maxAge now dir f = true) := by
  induction files with
  | nil => intro s f hf; exact Or.inl hf
  | cons file rest ih =>
    intro s f hf
    by_cases hg : file ∉ s.claimedFiles ∧ isFileRecent maxAge now dir file = true
    · simp only [scanFiles, if_pos hg] at hf
      rcases ih _ f hf with hf1 | ⟨hf1, hf2⟩
      · rcases (createAgent_claims s term file projectDir f).mp hf1 with h | h
        · exact Or.inl h
        · refine Or.inr ⟨by rw [h]; exact List.mem_cons_self _ _, by rw [h]; exact hg.2⟩
      · exact Or.inr ⟨List.mem_cons_of_mem _ hf1, hf2⟩
    · simp only [scanFiles, if_neg hg] at hf
      rcases ih s f hf with h | ⟨h1, h2⟩
      · exact Or.inl h
      · exact Or.inr ⟨List.mem_cons_of_mem _ h1, h2⟩

theorem scanFiles_claims_mono (term : Nat) (projectDir : String) (dir : List FileEntry)
    (now maxAge : Nat) (files : List String) : ∀ (s : Sys) (x : String),
    x ∈ s.claimedFiles → x ∈ (scanFiles term projectDir dir now maxAge s files).1.claimedFiles := by
  induction files with
  | nil => intro s x hx; exact hx
  | cons file rest ih =>
    intro s x hx
    by_cases hg : file ∉ s.claimedFiles ∧ isFileRecent maxAge now dir file = true
    · simp only [scanFiles, if_pos hg]
      exact ih _ x ((createAgent_claims s term file projectDir x).mpr (Or.inl hx))
    · simp only [scanFiles, if_neg hg]
      exact ih s x hx

theorem scanFiles_agents_lt (term : Nat) (projectDir : String) (dir : List FileEntry)
    (now maxAge : Nat) (files : List String) : ∀ (s : Sys) (j : Nat), j < s.nextAgentId →
    (scanFiles term projectDir dir now maxAge s files).1.agents j = s.agents j := by
  induction files with
  | nil => intro s j _; rfl
  | cons file rest ih =>
    intro s j hj
    by_cases hg : file ∉ s.claimedFiles ∧ isFileRecent maxAge now dir file = true
    · simp only [scanFiles, if_pos hg]
      have h1 : (scanFiles term projectDir dir now maxAge
            (createAgentFromFile s term file projectDir).1 rest).1.agents j
          = (createAgentFromFile s term file projectDir).1.agents j := by
        apply ih
        simp only [createAgentFromFile]
        omega
      rw [h1]
      simp only [createAgentFromFile]
      rw [if_neg (by omega)]
    · simp only [scanFiles, if_neg hg]
      exact ih s j hj

/-- **C8** — deterministic claiming ignores age: on a tick of a host with a
known session identifier, if the expected transcript exists in the listing
and is unclaimed, it is claimed on that very tick and its agent created,
for every modification time and every configured threshold; the
opportunistic pass claims only files that were unclaimed and pass the
recency filter; and a path is eligible iff the threshold is the zero
sentinel or `now - mtime < threshold`, a path absent from the listing being
never eligible when the threshold is non-zero. -/
theorem c8_deterministic_claiming (s : Sys) (term : Nat) (sessionId projectDir : String)
    (dir : List FileEntry) (now maxAge : Nat)
    (hnd : (dir.map (fun e => e.path)).Nodup)
    (hex : (dir.any fun e => e.path = pathJoin projectDir (sessionId ++ ".jsonl")) = true)
    (hun : pathJoin projectDir (sessionId ++ ".jsonl") ∉ s.claimedFiles) :
    (scanForNewFiles s term (some sessionId) projectDir dir now maxAge).1.agents s.nextAgentId
        = some (initialAgent s.nextAgentId term
            (pathJoin projectDir (sessionId ++ ".jsonl")) projectDir)
    ∧ pathJoin projectDir (sessionId ++ ".jsonl")
        ∈ (scanForNewFiles s term (some sessionId) projectDir dir now maxAge).1.claimedFiles
    ∧ (∀ f, f ∈ (scanForNewFiles s term (some sessionId) projectDir dir now maxAge).1.claimedFiles →
        f ∈ s.claimedFiles ∨ f = pathJoin projectDir (sessionId ++ ".jsonl")
        ∨ (f ∈ (dir.filter (fun e => strEndsWith e.path ".jsonl")).map (fun e => e.path)
            ∧ isFileRecent maxAge now dir f = true))
    ∧ (∀ f, isFileRecent maxAge now dir f = true
        ↔ (maxAge = 0 ∨ ∃ e, e ∈ dir ∧ e.path = f
            ∧ (now : Int) - (e.mtime : Int) < (maxAge : Int) * 1000)) := by
  have hscan : scanForNewFiles s term (some sessionId) projectDir dir now maxAge
      = (let r1 := createAgentFromFile s term (pathJoin projectDir (sessionId ++ ".jsonl")) projectDir
         let r2 := scanFiles term projectDir dir now maxAge r1.1
           ((dir.filter (fun e => strEndsWith e.path ".jsonl")).map (fun e => e.path))
         (r2.1, r1.2 ++ r2.2)) := by
    unfold scanForNewFiles
    dsimp only
    rw [if_pos ⟨hex, hun⟩]
  refine ⟨?_, ?_, ?_, ?_⟩
  · rw [hscan]
    have h1 := scanFiles_agents_lt term projectDir dir now maxAge
      ((dir.filter (fun e => strEndsWith e.path ".jsonl")).map (fun e => e.path))
      (createAgentFromFile s term (pathJoin projectDir (sessionId ++ ".jsonl")) projectDir).1
      s.nextAgentId (by simp only [createAgentFromFile]; omega)
    dsimp only
    rw [h1]
    simp [createAgentFromFile]
  · rw [hscan]
    dsimp only
    apply scanFiles_claims_mono
    exact (createAgent_claims s term _ projectDir _).mpr (Or.inr rfl)
  · intro f hf
    rw [hscan] at hf
    dsimp only at hf
    rcases scanFiles_claims term projectDir dir now maxAge _ _ f hf with h | ⟨h1, h2⟩
    · rcases (createAgent_claims s term _ projectDir f).mp h with h | h
      · exact Or.inl h
      · exact Or.inr (Or.inl h)
    · exact Or.inr (Or.inr ⟨h1, h2⟩)
  · intro f
    unfold isFileRecent
    by_cases h0 : maxAge = 0
    · simp [h0]
    · rw [if_neg h0]
      cases hfind : dir.find? (fun e => e.path = f) with
      | none =>
        simp only [h0, false_or]
        constructor
        · intro h
          cases h
        · rintro ⟨e, he, hp, hm⟩
          have hcon := List.find?_eq_none.mp hfind e he
          simp [hp] at hcon
      | some e =>
        have hmem := List.mem_of_find?_eq_some hfind
        have hpe : e.path = f := by simpa using List.find?_some hfind
        constructor
        · intro h
          exact Or.inr ⟨e, hmem, hpe, by simpa using h⟩
        · rintro (h | ⟨e', he', hp', hm'⟩)
          · exact absurd h h0
          · have hee : e' = e := by
              apply List.inj_on_of_nodup_map hnd he' hmem
              rw [hp', hpe]
            subst hee
            simpa using hm'

/-- Witness for C8: a session file far older than the threshold is still
claimed deterministically on the tick. -/
theorem c8_deterministic_claiming_witness :
    ((([⟨"d/s.jsonl", 0⟩] : List FileEntry).map (fun e => e.path)).Nodup)
    ∧ (([⟨"d/s.jsonl", 0⟩] : List FileEntry).any
        fun e => e.path = pathJoin "d" ("s" ++ ".jsonl")) = true
    ∧ pathJoin "d" ("s" ++ ".jsonl") ∉ initSys.claimedFiles
    ∧ (scanForNewFiles initSys 7 (some "s") "d" [⟨"d/s.jsonl", 0⟩] 1000000000 180).1.agents 1
        = some (initialAgent 1 7 (pathJoin "d" ("s" ++ ".jsonl")) "d")
    ∧ isFileRecent 180 1000000000 [⟨"d/s.jsonl", 0⟩] "d/s.jsonl" = false :=
  ⟨by decide, by decide, by decide,
   (c8_deterministic_claiming initSys 7 "s" "d" [⟨"d/s.jsonl", 0⟩] 1000000000 180
     (by decide) (by decide) (by decide)).1,
   by decide⟩
